import Mathlib

/-!
Verification of the editable-buffer synchronization engine of a browser
live-code editor (three documents with bounded undo/redo history, a
case-insensitive substring search, an import handler, and a regex-based
syntax highlighter).  All stateful handlers from `src/App.tsx` are embedded
as pure functions on explicit state records; the highlighter from
`src/components/Editor.tsx` is embedded over `List Char` with each regex
rule translated into an executable scanner.  Machine strings are modelled
as `String` (history manager, which never inspects characters) or
`List Char` (search and highlighting, which scan character by character).
-/

/-! ## Buffer history manager (src/App.tsx lines 19, 106-139, 321-363)

One `Doc` models one of the three per-language slots
(text, undo stack, redo stack); the three change handlers
`handleHtmlChange` / `handleCssChange` / `handleJsChange` are identical up
to the slot they touch, so a single generic embedding stands for all three.
-/

def MAX_UNDO_STACK_SIZE : Nat := 50

structure Doc where
  text : String
  undoStack : List String
  redoStack : List String
deriving DecidableEq

/-- Embedding of `pushToUndoStackInternal` (App.tsx lines 106-114):
skip when the stack front already equals the value, otherwise cons and
truncate to the bound. -/
def pushToUndoStackInternal (currentCodeValue : String) (stack : List String) : List String :=
  if 0 < stack.length ∧ stack.head? = some currentCodeValue then stack
  else
    let newStack := currentCodeValue :: stack
    if MAX_UNDO_STACK_SIZE < newStack.length then newStack.take MAX_UNDO_STACK_SIZE
    else newStack

/-- Embedding of `handleHtmlChange` (App.tsx lines 117-123); the css/js
handlers are the same function acting on their own slot. -/
def handleHtmlChange (value : String) (doc : Doc) : Doc :=
  if value ≠ doc.text then
    { text := value
      undoStack := pushToUndoStackInternal doc.text doc.undoStack
      redoStack := [] }
  else doc

/-- Embedding of `handleUndo` (App.tsx lines 321-341) for the active slot. -/
def handleUndo (doc : Doc) : Doc :=
  match doc.undoStack with
  | [] => doc
  | lastState :: restOfStack =>
    { text := lastState
      undoStack := restOfStack
      redoStack := (doc.text :: doc.redoStack).take MAX_UNDO_STACK_SIZE }

/-- Embedding of `handleRedo` (App.tsx lines 343-363) for the active slot. -/
def handleRedo (doc : Doc) : Doc :=
  match doc.redoStack with
  | [] => doc
  | nextState :: restOfStack =>
    { text := nextState
      undoStack := (doc.text :: doc.undoStack).take MAX_UNDO_STACK_SIZE
      redoStack := restOfStack }

/-- One user-level history operation on a document. -/
inductive HistoryOp where
  | commit (value : String)
  | undo
  | redo

/-- Apply one history operation to a document. -/
def applyOp (doc : Doc) (op : HistoryOp) : Doc :=
  match op with
  | .commit v => handleHtmlChange v doc
  | .undo => handleUndo doc
  | .redo => handleRedo doc

/-- Run a sequence of history operations. -/
def runOps (doc : Doc) (ops : List HistoryOp) : Doc :=
  ops.foldl applyOp doc

lemma pushToUndoStackInternal_head? (v : String) (st : List String) :
    (pushToUndoStackInternal v st).head? = some v := by
  unfold pushToUndoStackInternal
  split
  · next h => exact h.2
  · show (if MAX_UNDO_STACK_SIZE < (v :: st).length then
        (v :: st).take MAX_UNDO_STACK_SIZE else (v :: st)).head? = some v
    split
    · rfl
    · rfl

lemma pushToUndoStackInternal_cons_of_head_ne (v : String) (st : List String)
    (h : st.head? ≠ some v) :
    ∃ u, pushToUndoStackInternal v st = v :: u := by
  unfold pushToUndoStackInternal
  split
  · next hc => exact absurd hc.2 h
  · show ∃ u, (if MAX_UNDO_STACK_SIZE < (v :: st).length then
        (v :: st).take MAX_UNDO_STACK_SIZE else (v :: st)) = v :: u
    split
    · exact ⟨st.take (MAX_UNDO_STACK_SIZE - 1), rfl⟩
    · exact ⟨st, rfl⟩

/-- Claim C2: After `commit A` then `commit B` (with `A ≠ B` and `A` distinct
from the document's initial text) followed by `undo`, the document text is
`A` and the front of the redo stack is `B`. -/
theorem commit_commit_undo_restores (doc : Doc) (A B : String)
    (hAB : A ≠ B) (hA : A ≠ doc.text) :
    (handleUndo (handleHtmlChange B (handleHtmlChange A doc))).text = A ∧
    (handleUndo (handleHtmlChange B (handleHtmlChange A doc))).redoStack.head? = some B := by
  have h1 : handleHtmlChange A doc =
      ⟨A, pushToUndoStackInternal doc.text doc.undoStack, []⟩ := by
    unfold handleHtmlChange
    rw [if_pos hA]
  have h2 : handleHtmlChange B (handleHtmlChange A doc) =
      ⟨B, pushToUndoStackInternal A (pushToUndoStackInternal doc.text doc.undoStack), []⟩ := by
    rw [h1]
    unfold handleHtmlChange
    rw [if_pos (show B ≠ (Doc.mk A (pushToUndoStackInternal doc.text doc.undoStack) []).text
      from Ne.symm hAB)]
  have hne : (pushToUndoStackInternal doc.text doc.undoStack).head? ≠ some A := by
    rw [pushToUndoStackInternal_head?]
    intro hcontra
    exact hA (Option.some.inj hcontra).symm
  obtain ⟨u, hu⟩ := pushToUndoStackInternal_cons_of_head_ne A _ hne
  rw [h2]
  unfold handleUndo
  rw [hu]
  exact ⟨rfl, rfl⟩

/-- Witness for `commit_commit_undo_restores` at a concrete document. -/
theorem commit_commit_undo_restores_witness :
    (handleUndo (handleHtmlChange "b" (handleHtmlChange "a" ⟨"x", [], []⟩))).text = "a" ∧
    (handleUndo (handleHtmlChange "b" (handleHtmlChange "a" ⟨"x", [], []⟩))).redoStack.head? =
      some "b" :=
  commit_commit_undo_restores ⟨"x", [], []⟩ "a" "b" (by decide) (by decide)

/-- Claim C3: `undo` immediately followed by `redo` restores the exact text
held before the `undo`, whenever the undo stack is non-empty. -/
theorem undo_then_redo_restores (doc : Doc) (h : doc.undoStack ≠ []) :
    (handleRedo (handleUndo doc)).text = doc.text := by
  obtain ⟨x, rest, hx⟩ : ∃ x rest, doc.undoStack = x :: rest := by
    cases hl : doc.undoStack with
    | nil => exact absurd hl h
    | cons a t => exact ⟨a, t, rfl⟩
  have h1 : handleUndo doc =
      ⟨x, rest, (doc.text :: doc.redoStack).take MAX_UNDO_STACK_SIZE⟩ := by
    unfold handleUndo
    rw [hx]
  rw [h1]
  unfold handleRedo
  have htake : (doc.text :: doc.redoStack).take MAX_UNDO_STACK_SIZE =
      doc.text :: doc.redoStack.take (MAX_UNDO_STACK_SIZE - 1) := rfl
  rw [htake]

/-- Witness for `undo_then_redo_restores` at a concrete document. -/
theorem undo_then_redo_restores_witness :
    (handleRedo (handleUndo ⟨"cur", ["old"], []⟩)).text = "cur" :=
  undo_then_redo_restores ⟨"cur", ["old"], []⟩ (by decide)

/-- Claim C8: Any committed user edit (a commit whose text differs from the
current text) leaves the redo stack empty. -/
theorem commit_clears_redoStack (doc : Doc) (v : String) (h : v ≠ doc.text) :
    (handleHtmlChange v doc).redoStack = [] := by
  unfold handleHtmlChange
  rw [if_pos h]

/-- Witness for `commit_clears_redoStack` at a concrete document. -/
theorem commit_clears_redoStack_witness :
    (handleHtmlChange "b" ⟨"a", [], ["r"]⟩).redoStack = [] :=
  commit_clears_redoStack ⟨"a", [], ["r"]⟩ "b" (by decide)

/-- Claim C7: Committing the current text is a no-op; committing a new text
whose old value already fronts the undo stack does not push a duplicate
snapshot; committing the same text twice does not grow the stack twice. -/
theorem commit_duplicate_guard :
    (∀ doc : Doc, handleHtmlChange doc.text doc = doc) ∧
    (∀ (doc : Doc) (v : String), doc.undoStack.head? = some doc.text →
      (handleHtmlChange v doc).undoStack = doc.undoStack) ∧
    (∀ (doc : Doc) (v : String),
      (handleHtmlChange v (handleHtmlChange v doc)).undoStack =
        (handleHtmlChange v doc).undoStack) := by
  refine ⟨?_, ?_, ?_⟩
  · intro doc
    unfold handleHtmlChange
    rw [if_neg (by simp)]
  · intro doc v h
    by_cases hv : v = doc.text
    · have hfix : handleHtmlChange v doc = doc := by
        unfold handleHtmlChange
        rw [if_neg (by simpa using hv)]
      rw [hfix]
    · have hpos : 0 < doc.undoStack.length := by
        cases hst : doc.undoStack with
        | nil => rw [hst] at h; exact absurd h (by simp)
        | cons a t => simp
      have hcommit : handleHtmlChange v doc =
          ⟨v, pushToUndoStackInternal doc.text doc.undoStack, []⟩ := by
        unfold handleHtmlChange
        rw [if_pos hv]
      rw [hcommit]
      show pushToUndoStackInternal doc.text doc.undoStack = doc.undoStack
      unfold pushToUndoStackInternal
      rw [if_pos ⟨hpos, h⟩]
  · intro doc v
    by_cases hv : v = doc.text
    · have hfix : handleHtmlChange v doc = doc := by
        unfold handleHtmlChange
        rw [if_neg (by simpa using hv)]
      rw [hfix, hfix]
    · have h1 : handleHtmlChange v doc =
          ⟨v, pushToUndoStackInternal doc.text doc.undoStack, []⟩ := by
        unfold handleHtmlChange
        rw [if_pos hv]
      rw [h1]
      unfold handleHtmlChange
      rw [if_neg (by simp)]

/-- Witness for `commit_duplicate_guard` at concrete documents. -/
theorem commit_duplicate_guard_witness :
    (handleHtmlChange "t" ⟨"t", [], []⟩ = ⟨"t", [], []⟩) ∧
    ((handleHtmlChange "v" ⟨"t", ["t"], []⟩).undoStack = ["t"]) ∧
    ((handleHtmlChange "v" (handleHtmlChange "v" ⟨"t", [], []⟩)).undoStack =
      (handleHtmlChange "v" ⟨"t", [], []⟩).undoStack) :=
  ⟨commit_duplicate_guard.1 ⟨"t", [], []⟩,
   commit_duplicate_guard.2.1 ⟨"t", ["t"], []⟩ "v" (by decide),
   commit_duplicate_guard.2.2 ⟨"t", [], []⟩ "v"⟩

lemma pushToUndoStackInternal_length_le (v : String) (st : List String)
    (h : st.length ≤ MAX_UNDO_STACK_SIZE) :
    (pushToUndoStackInternal v st).length ≤ MAX_UNDO_STACK_SIZE := by
  unfold pushToUndoStackInternal
  split
  · exact h
  · show (if MAX_UNDO_STACK_SIZE < (v :: st).length then
        (v :: st).take MAX_UNDO_STACK_SIZE else (v :: st)).length ≤ MAX_UNDO_STACK_SIZE
    split
    · simp [List.length_take]
    · next hlt => omega

lemma applyOp_preserves_bounds (doc : Doc) (op : HistoryOp)
    (hu : doc.undoStack.length ≤ MAX_UNDO_STACK_SIZE)
    (hr : doc.redoStack.length ≤ MAX_UNDO_STACK_SIZE) :
    (applyOp doc op).undoStack.length ≤ MAX_UNDO_STACK_SIZE ∧
    (applyOp doc op).redoStack.length ≤ MAX_UNDO_STACK_SIZE := by
  cases op with
  | commit v =>
    show (handleHtmlChange v doc).undoStack.length ≤ _ ∧
      (handleHtmlChange v doc).redoStack.length ≤ _
    unfold handleHtmlChange
    split
    · exact ⟨pushToUndoStackInternal_length_le _ _ hu, by simp⟩
    · exact ⟨hu, hr⟩
  | undo =>
    show (handleUndo doc).undoStack.length ≤ _ ∧ (handleUndo doc).redoStack.length ≤ _
    cases hst : doc.undoStack with
    | nil =>
      have hfix : handleUndo doc = doc := by
        unfold handleUndo
        rw [hst]
      rw [hfix]
      exact ⟨hu, hr⟩
    | cons a t =>
      have h1 : handleUndo doc =
          ⟨a, t, (doc.text :: doc.redoStack).take MAX_UNDO_STACK_SIZE⟩ := by
        unfold handleUndo
        rw [hst]
      rw [h1]
      rw [hst] at hu
      simp only [List.length_cons] at hu
      exact ⟨by show t.length ≤ _; omega, by simp [List.length_take]⟩
  | redo =>
    show (handleRedo doc).undoStack.length ≤ _ ∧ (handleRedo doc).redoStack.length ≤ _
    cases hst : doc.redoStack with
    | nil =>
      have hfix : handleRedo doc = doc := by
        unfold handleRedo
        rw [hst]
      rw [hfix]
      exact ⟨hu, hr⟩
    | cons a t =>
      have h1 : handleRedo doc =
          ⟨a, (doc.text :: doc.undoStack).take MAX_UNDO_STACK_SIZE, t⟩ := by
        unfold handleRedo
        rw [hst]
      rw [h1]
      rw [hst] at hr
      simp only [List.length_cons] at hr
      exact ⟨by simp [List.length_take], by show t.length ≤ _; omega⟩

/-- Claim C6: Over any sequence of commit/undo/redo operations the undo and
redo stacks never exceed 50 entries, and pushing onto a full stack evicts
the oldest entry (shown for the commit push onto a full undo stack and the
undo push onto a full redo stack). -/
theorem undo_redo_stack_bound_and_eviction :
    (∀ (ops : List HistoryOp) (doc : Doc),
      doc.undoStack.length ≤ MAX_UNDO_STACK_SIZE →
      doc.redoStack.length ≤ MAX_UNDO_STACK_SIZE →
      (runOps doc ops).undoStack.length ≤ MAX_UNDO_STACK_SIZE ∧
      (runOps doc ops).redoStack.length ≤ MAX_UNDO_STACK_SIZE) ∧
    (∀ (doc : Doc) (v : String), v ≠ doc.text →
      doc.undoStack.head? ≠ some doc.text →
      doc.undoStack.length = MAX_UNDO_STACK_SIZE →
      (handleHtmlChange v doc).undoStack = doc.text :: doc.undoStack.dropLast ∧
      (handleHtmlChange v doc).undoStack.length = MAX_UNDO_STACK_SIZE) ∧
    (∀ doc : Doc, doc.undoStack ≠ [] →
      doc.redoStack.length = MAX_UNDO_STACK_SIZE →
      (handleUndo doc).redoStack = doc.text :: doc.redoStack.dropLast ∧
      (handleUndo doc).redoStack.length = MAX_UNDO_STACK_SIZE) := by
  refine ⟨?_, ?_, ?_⟩
  · intro ops
    induction ops with
    | nil => intro doc hu hr; exact ⟨hu, hr⟩
    | cons op ops ih =>
      intro doc hu hr
      have hstep := applyOp_preserves_bounds doc op hu hr
      exact ih (applyOp doc op) hstep.1 hstep.2
  · intro doc v hv hhead hlen
    have hcommit : handleHtmlChange v doc =
        ⟨v, pushToUndoStackInternal doc.text doc.undoStack, []⟩ := by
      unfold handleHtmlChange
      rw [if_pos hv]
    rw [hcommit]
    show pushToUndoStackInternal doc.text doc.undoStack = _ ∧
      (pushToUndoStackInternal doc.text doc.undoStack).length = _
    unfold pushToUndoStackInternal
    rw [if_neg (fun hc => hhead hc.2)]
    show (if MAX_UNDO_STACK_SIZE < (doc.text :: doc.undoStack).length then
        (doc.text :: doc.undoStack).take MAX_UNDO_STACK_SIZE
      else (doc.text :: doc.undoStack)) = _ ∧ _
    rw [if_pos (by simp [hlen, MAX_UNDO_STACK_SIZE])]
    have htake : (doc.text :: doc.undoStack).take MAX_UNDO_STACK_SIZE =
        doc.text :: doc.undoStack.take (MAX_UNDO_STACK_SIZE - 1) := rfl
    rw [htake]
    constructor
    · have : doc.undoStack.take (MAX_UNDO_STACK_SIZE - 1) = doc.undoStack.dropLast := by
        rw [List.dropLast_eq_take, hlen]
      rw [this]
    · simp [List.length_take, hlen, MAX_UNDO_STACK_SIZE]
  · intro doc hne hlen
    obtain ⟨x, rest, hx⟩ : ∃ x rest, doc.undoStack = x :: rest := by
      cases hl : doc.undoStack with
      | nil => exact absurd hl hne
      | cons a t => exact ⟨a, t, rfl⟩
    have h1 : handleUndo doc =
        ⟨x, rest, (doc.text :: doc.redoStack).take MAX_UNDO_STACK_SIZE⟩ := by
      unfold handleUndo
      rw [hx]
    rw [h1]
    have htake : (doc.text :: doc.redoStack).take MAX_UNDO_STACK_SIZE =
        doc.text :: doc.redoStack.take (MAX_UNDO_STACK_SIZE - 1) := rfl
    show (doc.text :: doc.redoStack).take MAX_UNDO_STACK_SIZE = _ ∧
      ((doc.text :: doc.redoStack).take MAX_UNDO_STACK_SIZE).length = _
    rw [htake]
    constructor
    · have : doc.redoStack.take (MAX_UNDO_STACK_SIZE - 1) = doc.redoStack.dropLast := by
        rw [List.dropLast_eq_take, hlen]
      rw [this]
    · simp [List.length_take, hlen, MAX_UNDO_STACK_SIZE]

/-- Witness for `undo_redo_stack_bound_and_eviction` at concrete inputs:
a short operation sequence, a commit onto a full undo stack, and an undo
with a full redo stack. -/
theorem undo_redo_stack_bound_and_eviction_witness :
    ((runOps ⟨"x", [], []⟩ [HistoryOp.commit "a", HistoryOp.undo,
        HistoryOp.redo]).undoStack.length ≤ MAX_UNDO_STACK_SIZE ∧
      (runOps ⟨"x", [], []⟩ [HistoryOp.commit "a", HistoryOp.undo,
        HistoryOp.redo]).redoStack.length ≤ MAX_UNDO_STACK_SIZE) ∧
    ((handleHtmlChange "v" ⟨"t", List.replicate 50 "s", []⟩).undoStack =
        "t" :: (List.replicate 50 "s").dropLast ∧
      (handleHtmlChange "v" ⟨"t", List.replicate 50 "s", []⟩).undoStack.length =
        MAX_UNDO_STACK_SIZE) ∧
    ((handleUndo ⟨"t", ["u"], List.replicate 50 "r"⟩).redoStack =
        "t" :: (List.replicate 50 "r").dropLast ∧
      (handleUndo ⟨"t", ["u"], List.replicate 50 "r"⟩).redoStack.length =
        MAX_UNDO_STACK_SIZE) :=
  ⟨undo_redo_stack_bound_and_eviction.1 [HistoryOp.commit "a", HistoryOp.undo, HistoryOp.redo]
      ⟨"x", [], []⟩ (by decide) (by decide),
   undo_redo_stack_bound_and_eviction.2.1 ⟨"t", List.replicate 50 "s", []⟩ "v"
      (by decide) (by decide) (by decide),
   undo_redo_stack_bound_and_eviction.2.2 ⟨"t", ["u"], List.replicate 50 "r"⟩
      (by decide) (by decide)⟩

/-! ## Project import (src/App.tsx lines 283-319)

The browser-side `DOMParser` is an external collaborator: its outcome is
modelled as an `Except` value carrying either a parse failure or the three
optional marker elements (`project-html-content` innerHTML, `project-css`
textContent, `project-js` textContent).  The handler's try/catch body is
embedded as a pure function from the current editor state and the parse
outcome to the next state plus the user-facing notification. -/

structure ParsedProjectDoc where
  htmlContentElem : Option String
  cssElem : Option String
  jsElem : Option String
deriving DecidableEq

structure AppCodeState where
  htmlCode : String
  cssCode : String
  jsCode : String
  htmlUndoStack : List String
  cssUndoStack : List String
  jsUndoStack : List String
  htmlRedoStack : List String
  cssRedoStack : List String
  jsRedoStack : List String
deriving DecidableEq

inductive ImportOutcome where
  | success
  | failure
deriving DecidableEq

/-- Embedding of the file-load body of `handleImportProject`
(App.tsx lines 291-313): on success substitute empty strings for missing
marker elements, clear every undo/redo stack and set the three texts; on
failure notify and leave the state untouched. -/
def handleImportProject (st : AppCodeState) (parsed : Except String ParsedProjectDoc) :
    AppCodeState × ImportOutcome :=
  match parsed with
  | Except.error _ => (st, ImportOutcome.failure)
  | Except.ok doc =>
    let importedHtml := doc.htmlContentElem.getD ""
    let importedCss := doc.cssElem.getD ""
    let importedJs := doc.jsElem.getD ""
    ({ htmlCode := importedHtml, cssCode := importedCss, jsCode := importedJs
       htmlUndoStack := [], cssUndoStack := [], jsUndoStack := []
       htmlRedoStack := [], cssRedoStack := [], jsRedoStack := [] },
     ImportOutcome.success)

/-- Claim C5: On an import/parse failure the handler reports an explicit
failure notification and leaves the three texts and all six undo/redo
stacks unchanged: the state after the failed import is the original state. -/
theorem import_failure_preserves_state (st : AppCodeState) (e : String) :
    (handleImportProject st (Except.error e)).1 = st ∧
    (handleImportProject st (Except.error e)).2 = ImportOutcome.failure :=
  ⟨rfl, rfl⟩

/-- Claim C9: Importing a parsed document that lacks the script marker
element yields an empty script text, raises no failure (the outcome is
success), and imports the other two fields that are present. -/
theorem import_missing_script_marker (st : AppCodeState) (d : ParsedProjectDoc)
    (H C : String) (hjs : d.jsElem = none)
    (hhtml : d.htmlContentElem = some H) (hcss : d.cssElem = some C) :
    (handleImportProject st (Except.ok d)).2 = ImportOutcome.success ∧
    (handleImportProject st (Except.ok d)).1.jsCode = "" ∧
    (handleImportProject st (Except.ok d)).1.htmlCode = H ∧
    (handleImportProject st (Except.ok d)).1.cssCode = C := by
  refine ⟨rfl, ?_, ?_, ?_⟩
  · show (d.jsElem.getD "") = ""
    rw [hjs]
    rfl
  · show (d.htmlContentElem.getD "") = H
    rw [hhtml]
    rfl
  · show (d.cssElem.getD "") = C
    rw [hcss]
    rfl

/-- Witness for `import_missing_script_marker` at a concrete parsed
document with the script marker absent. -/
theorem import_missing_script_marker_witness :
    (handleImportProject ⟨"h0", "c0", "j0", ["u"], [], [], ["r"], [], []⟩
      (Except.ok ⟨some "<p>x</p>", some "p: red", none⟩)).2 = ImportOutcome.success ∧
    (handleImportProject ⟨"h0", "c0", "j0", ["u"], [], [], ["r"], [], []⟩
      (Except.ok ⟨some "<p>x</p>", some "p: red", none⟩)).1.jsCode = "" ∧
    (handleImportProject ⟨"h0", "c0", "j0", ["u"], [], [], ["r"], [], []⟩
      (Except.ok ⟨some "<p>x</p>", some "p: red", none⟩)).1.htmlCode = "<p>x</p>" ∧
    (handleImportProject ⟨"h0", "c0", "j0", ["u"], [], [], ["r"], [], []⟩
      (Except.ok ⟨some "<p>x</p>", some "p: red", none⟩)).1.cssCode = "p: red" :=
  import_missing_script_marker ⟨"h0", "c0", "j0", ["u"], [], [], ["r"], [], []⟩
    ⟨some "<p>x</p>", some "p: red", none⟩ "<p>x</p>" "p: red" rfl rfl rfl

/-! ## Search (src/App.tsx lines 36-38, 165-227)

`handleSearch` is embedded over `List Char` (the DOM scroll code after the
state update is presentation-only and the editor element is assumed
present).  JavaScript's `indexOf(term, from)` becomes `indexOfFrom`, the
`while` collection loop becomes `collectMatches` (fuel-structured; one
unit of fuel per found match, and a non-empty term admits at most
`hay.length` matches, so `hay.length + 1` units never run out).
JavaScript's `%` on possibly signed operands is `Int.tmod`. -/

def isJsSpace (c : Char) : Bool :=
  c = ' ' || c = '\t' || c = '\n' || c = '\r' || c = '\x0B' || c = '\x0C'

/-- ASCII model of JavaScript `toLowerCase`. -/
def jsToLower (c : Char) : Char :=
  if 'A' ≤ c ∧ c ≤ 'Z' then Char.ofNat (c.toNat + 32) else c

def toLowerList (s : List Char) : List Char := s.map jsToLower

/-- ASCII model of JavaScript `trim`. -/
def trimList (s : List Char) : List Char :=
  ((s.dropWhile isJsSpace).reverse.dropWhile isJsSpace).reverse

def findFromAux (needle : List Char) : List Char → Nat → Option Nat
  | [], p => if needle.isPrefixOf [] then some p else none
  | c :: t, p => if needle.isPrefixOf (c :: t) then some p else findFromAux needle t (p + 1)

/-- JavaScript `hay.indexOf(needle, k)`: position of the first occurrence
of `needle` at or after `k`. -/
def indexOfFrom (hay needle : List Char) (k : Nat) : Option Nat :=
  findFromAux needle (hay.drop k) k

/-- The collection loop `while ((i = codeToSearch.indexOf(term, i + 1)) !== -1)`
(App.tsx lines 186-189): each found start offset is recorded and the next
scan resumes one past that offset. -/
def collectMatchesAux (needle hay : List Char) : Nat → Nat → List Nat
  | _, 0 => []
  | k, fuel + 1 =>
    match indexOfFrom hay needle k with
    | some i => i :: collectMatchesAux needle hay (i + 1) fuel
    | none => []

def collectMatches (needle hay : List Char) : List Nat :=
  collectMatchesAux needle hay 0 (hay.length + 1)

structure SearchResults where
  indices : List Nat
  currentResultIndex : Int
deriving DecidableEq

inductive SearchNav where
  | next
  | prev
deriving DecidableEq

/-- Embedding of `handleSearch` (App.tsx lines 165-200): returns the new
search results together with the new `lastSearchedTerm`. -/
def handleSearch (searchTerm lastSearchedTerm currentCode : List Char)
    (searchResults : SearchResults) (navigation : Option SearchNav) :
    SearchResults × List Char :=
  if currentCode = [] then (⟨[], -1⟩, lastSearchedTerm)
  else if trimList searchTerm = [] then (⟨[], -1⟩, lastSearchedTerm)
  else if searchTerm ≠ lastSearchedTerm ∨ navigation = none then
    let term := toLowerList searchTerm
    let codeToSearch := toLowerList currentCode
    let newIndices := collectMatches term codeToSearch
    (⟨newIndices, if 0 < newIndices.length then 0 else -1⟩, searchTerm)
  else
    match navigation with
    | some nav =>
      if 0 < searchResults.indices.length then
        let len : Int := (searchResults.indices.length : Int)
        let newIdx :=
          match nav with
          | SearchNav.next => Int.tmod (searchResults.currentResultIndex + 1) len
          | SearchNav.prev => Int.tmod (searchResults.currentResultIndex - 1 + len) len
        (⟨searchResults.indices, newIdx⟩, lastSearchedTerm)
      else (searchResults, lastSearchedTerm)
    | none => (searchResults, lastSearchedTerm)

lemma isPrefixOf_true_iff (l₁ l₂ : List Char) : l₁.isPrefixOf l₂ = true ↔ l₁ <+: l₂ := by
  induction l₁ generalizing l₂ with
  | nil => simp [List.isPrefixOf]
  | cons c t ih =>
    cases l₂ with
    | nil => simp [List.isPrefixOf]
    | cons d u => simp [List.isPrefixOf, List.cons_prefix_cons, ih]

lemma findFromAux_none_spec (needle : List Char) :
    ∀ (s : List Char) (p : Nat), findFromAux needle s p = none →
      ∀ j, ¬ needle <+: s.drop j := by
  intro s
  induction s with
  | nil =>
    intro p h j hpre
    rw [List.drop_nil] at hpre
    have hb : needle.isPrefixOf ([] : List Char) = true := (isPrefixOf_true_iff _ _).mpr hpre
    simp [findFromAux, hb] at h
  | cons c t ih =>
    intro p h j
    unfold findFromAux at h
    by_cases hp : needle.isPrefixOf (c :: t) = true
    · simp [hp] at h
    · simp [hp] at h
      cases j with
      | zero =>
        intro hpre
        exact hp ((isPrefixOf_true_iff _ _).mpr hpre)
      | succ j' =>
        have := ih (p + 1) h j'
        simpa using this

lemma findFromAux_some_spec (needle : List Char) :
    ∀ (s : List Char) (p q : Nat), findFromAux needle s p = some q →
      p ≤ q ∧ needle <+: s.drop (q - p) ∧ ∀ j, j < q - p → ¬ needle <+: s.drop j := by
  intro s
  induction s with
  | nil =>
    intro p q h
    unfold findFromAux at h
    by_cases hp : needle.isPrefixOf ([] : List Char) = true
    · simp [hp] at h
      subst h
      exact ⟨Nat.le_refl _, by simpa using (isPrefixOf_true_iff _ _).mp hp,
        fun j hj => absurd hj (by omega)⟩
    · simp [hp] at h
  | cons c t ih =>
    intro p q h
    unfold findFromAux at h
    by_cases hp : needle.isPrefixOf (c :: t) = true
    · simp [hp] at h
      subst h
      refine ⟨Nat.le_refl _, ?_, fun j hj => absurd hj (by omega)⟩
      simpa using (isPrefixOf_true_iff _ _).mp hp
    · simp [hp] at h
      obtain ⟨hle, hpre, hmin⟩ := ih (p + 1) q h
      refine ⟨by omega, ?_, ?_⟩
      · have heq : q - p = (q - (p + 1)) + 1 := by omega
        rw [heq]
        simpa using hpre
      · intro j hj
        cases j with
        | zero =>
          intro hcontra
          exact hp ((isPrefixOf_true_iff _ _).mpr (by simpa using hcontra))
        | succ j' =>
          have hj' : j' < q - (p + 1) := by omega
          simpa using hmin j' hj'

lemma indexOfFrom_none_spec (hay needle : List Char) (k : Nat)
    (h : indexOfFrom hay needle k = none) :
    ∀ r, k ≤ r → ¬ needle <+: hay.drop r := by
  intro r hr
  have hx := findFromAux_none_spec needle (hay.drop k) k h (r - k)
  rw [List.drop_drop] at hx
  have harith : k + (r - k) = r := by omega
  rwa [harith] at hx

lemma indexOfFrom_some_spec (hay needle : List Char) (k i : Nat)
    (h : indexOfFrom hay needle k = some i) :
    k ≤ i ∧ needle <+: hay.drop i ∧ ∀ r, k ≤ r → r < i → ¬ needle <+: hay.drop r := by
  obtain ⟨hle, hpre, hmin⟩ := findFromAux_some_spec needle (hay.drop k) k i h
  refine ⟨hle, ?_, ?_⟩
  · rw [List.drop_drop] at hpre
    have harith : k + (i - k) = i := by omega
    rwa [harith] at hpre
  · intro r hkr hri
    have hx := hmin (r - k) (by omega)
    rw [List.drop_drop] at hx
    have harith : k + (r - k) = r := by omega
    rwa [harith] at hx

lemma prefix_drop_lt_length (needle hay : List Char) (p : Nat)
    (hne : needle ≠ []) (hpre : needle <+: hay.drop p) : p < hay.length := by
  obtain ⟨tail, htail⟩ := hpre
  by_contra hge
  push_neg at hge
  rw [List.drop_eq_nil_of_le hge] at htail
  cases needle with
  | nil => exact hne rfl
  | cons a b => simp at htail

lemma collectMatchesAux_mem (needle hay : List Char) (hne : needle ≠ []) :
    ∀ (fuel k p : Nat), hay.length + 1 ≤ fuel + k →
      (p ∈ collectMatchesAux needle hay k fuel ↔ (k ≤ p ∧ needle <+: hay.drop p)) := by
  intro fuel
  induction fuel with
  | zero =>
    intro k p hb
    simp only [collectMatchesAux, List.not_mem_nil, false_iff]
    rintro ⟨hkp, hpre⟩
    have := prefix_drop_lt_length needle hay p hne hpre
    omega
  | succ fuel ih =>
    intro k p hb
    simp only [collectMatchesAux]
    cases hio : indexOfFrom hay needle k with
    | none =>
      simp only [List.not_mem_nil, false_iff]
      rintro ⟨hkp, hpre⟩
      exact indexOfFrom_none_spec hay needle k hio p hkp hpre
    | some i =>
      obtain ⟨hki, hprei, hmin⟩ := indexOfFrom_some_spec hay needle k i hio
      have hil : i < hay.length := prefix_drop_lt_length needle hay i hne hprei
      rw [List.mem_cons, ih (i + 1) p (by omega)]
      constructor
      · rintro (rfl | ⟨h1, h2⟩)
        · exact ⟨hki, hprei⟩
        · exact ⟨by omega, h2⟩
      · rintro ⟨hkp, hpre⟩
        rcases Nat.lt_trichotomy p i with hlt | heq | hgt
        · exact absurd hpre (hmin p hkp hlt)
        · exact Or.inl heq
        · exact Or.inr ⟨by omega, hpre⟩

lemma collectMatchesAux_lb (needle hay : List Char) :
    ∀ (fuel k : Nat), ∀ p ∈ collectMatchesAux needle hay k fuel, k ≤ p := by
  intro fuel
  induction fuel with
  | zero =>
    intro k p hp
    simp [collectMatchesAux] at hp
  | succ fuel ih =>
    intro k p hp
    simp only [collectMatchesAux] at hp
    cases hio : indexOfFrom hay needle k with
    | none =>
      rw [hio] at hp
      simp at hp
    | some i =>
      rw [hio] at hp
      simp only [List.mem_cons] at hp
      obtain ⟨hki, _, _⟩ := indexOfFrom_some_spec hay needle k i hio
      rcases hp with rfl | hp
      · exact hki
      · have := ih (i + 1) p hp
        omega

lemma collectMatchesAux_chain (needle hay : List Char) :
    ∀ (fuel k : Nat), List.Chain' (· < ·) (collectMatchesAux needle hay k fuel) := by
  intro fuel
  induction fuel with
  | zero =>
    intro k
    simp [collectMatchesAux]
  | succ fuel ih =>
    intro k
    simp only [collectMatchesAux]
    cases hio : indexOfFrom hay needle k with
    | none => simp
    | some i =>
      rw [List.chain'_cons']
      refine ⟨?_, ih (i + 1)⟩
      intro y hy
      have hmem : y ∈ collectMatchesAux needle hay (i + 1) fuel := by
        cases hl : collectMatchesAux needle hay (i + 1) fuel with
        | nil =>
          rw [hl] at hy
          simp at hy
        | cons a t =>
          rw [hl] at hy
          simp only [List.head?_cons, Option.mem_def, Option.some.injEq] at hy
          subst hy
          simp
      have := collectMatchesAux_lb needle hay fuel (i + 1) y hmem
      omega

lemma trimList_ne_nil_of (s : List Char) (h : trimList s ≠ []) : s ≠ [] := by
  intro hs
  rw [hs] at h
  exact h rfl

/-- Modelled from the spec: the claim describes the recomputation as
substring scanning that resumes from the previous match's END.  This
variant implements that wording (resume at `i + needle.length`) for
comparison with the code's `collectMatches`, which resumes at `i + 1`. -/
def collectMatchesFromEndAux (needle hay : List Char) : Nat → Nat → List Nat
  | _, 0 => []
  | k, fuel + 1 =>
    match indexOfFrom hay needle k with
    | some i => i :: collectMatchesFromEndAux needle hay (i + needle.length) fuel
    | none => []

/-- Modelled from the spec: all match offsets under resume-from-match-end
scanning. -/
def collectMatchesFromEnd (needle hay : List Char) : List Nat :=
  collectMatchesFromEndAux needle hay 0 (hay.length + 1)

/-- Claim C4 counterexample: For term `"aa"` over text `"aaa"` the code's
recomputation (scan resuming one past the previous match START) yields the
overlapping offsets `[0, 1]`, whereas scanning that resumes from the
previous match's END, as the claim states, yields `[0]`; the two differ. -/
theorem search_scan_resume_counterexample :
    (handleSearch ("aa".toList) [] ("aaa".toList) ⟨[], -1⟩ none).1.indices = [0, 1] ∧
    collectMatchesFromEnd (toLowerList ("aa".toList)) (toLowerList ("aaa".toList)) = [0] ∧
    ([0, 1] : List Nat) ≠ [0] := by
  decide

/-- Claim C4, amended: When the term changed since the last search or no
navigation direction is given, and the guards pass (non-empty code,
non-blank term), `handleSearch` recomputes the case-insensitive match
start offsets by repeated substring scanning that resumes one past the
previous match's start: the resulting list contains exactly the offsets
`p` at which the lowercased term is a prefix of the lowercased text
dropped by `p`, in strictly increasing order, and selects the first match
(index 0) or none (-1); the term is recorded as last searched. -/
theorem handleSearch_recompute_characterization
    (searchTerm lastSearchedTerm currentCode : List Char)
    (searchResults : SearchResults) (navigation : Option SearchNav)
    (hc : currentCode ≠ []) (ht : trimList searchTerm ≠ [])
    (hb : searchTerm ≠ lastSearchedTerm ∨ navigation = none) :
    (∀ p : Nat,
      p ∈ (handleSearch searchTerm lastSearchedTerm currentCode
        searchResults navigation).1.indices ↔
      toLowerList searchTerm <+: (toLowerList currentCode).drop p) ∧
    List.Chain' (· < ·) (handleSearch searchTerm lastSearchedTerm currentCode
      searchResults navigation).1.indices ∧
    ((handleSearch searchTerm lastSearchedTerm currentCode
        searchResults navigation).1.currentResultIndex =
      if (handleSearch searchTerm lastSearchedTerm currentCode
        searchResults navigation).1.indices = [] then -1 else 0) ∧
    (handleSearch searchTerm lastSearchedTerm currentCode
      searchResults navigation).2 = searchTerm := by
  have hne : toLowerList searchTerm ≠ [] := by
    have hst := trimList_ne_nil_of searchTerm ht
    simp [toLowerList, hst]
  have hmain : handleSearch searchTerm lastSearchedTerm currentCode
      searchResults navigation =
      (⟨collectMatches (toLowerList searchTerm) (toLowerList currentCode),
        if 0 < (collectMatches (toLowerList searchTerm) (toLowerList currentCode)).length
        then 0 else -1⟩, searchTerm) := by
    unfold handleSearch
    rw [if_neg hc, if_neg ht, if_pos hb]
  rw [hmain]
  refine ⟨?_, ?_, ?_, rfl⟩
  · intro p
    have hm := collectMatchesAux_mem (toLowerList searchTerm) (toLowerList currentCode)
      hne ((toLowerList currentCode).length + 1) 0 p (by omega)
    show p ∈ collectMatches (toLowerList searchTerm) (toLowerList currentCode) ↔ _
    unfold collectMatches
    rw [hm]
    simp
  · exact collectMatchesAux_chain _ _ _ _
  · show (if 0 < (collectMatches (toLowerList searchTerm) (toLowerList currentCode)).length
      then (0 : Int) else -1) = _
    cases hl : collectMatches (toLowerList searchTerm) (toLowerList currentCode) with
    | nil => simp
    | cons a t => simp

/-- Witness for `handleSearch_recompute_characterization` at term `"aa"`
over text `"aaa"`. -/
theorem handleSearch_recompute_characterization_witness :
    (∀ p : Nat,
      p ∈ (handleSearch ("aa".toList) [] ("aaa".toList) ⟨[], -1⟩ none).1.indices ↔
      toLowerList ("aa".toList) <+: (toLowerList ("aaa".toList)).drop p) ∧
    List.Chain' (· < ·) (handleSearch ("aa".toList) [] ("aaa".toList) ⟨[], -1⟩ none).1.indices ∧
    ((handleSearch ("aa".toList) [] ("aaa".toList) ⟨[], -1⟩ none).1.currentResultIndex =
      if (handleSearch ("aa".toList) [] ("aaa".toList) ⟨[], -1⟩ none).1.indices = []
      then -1 else 0) ∧
    (handleSearch ("aa".toList) [] ("aaa".toList) ⟨[], -1⟩ none).2 = "aa".toList :=
  handleSearch_recompute_characterization ("aa".toList) [] ("aaa".toList) ⟨[], -1⟩ none
    (by decide) (by decide) (Or.inr rfl)

/-- Claim C10: Searching `"div"` in `"<div><div>"` yields match offsets
`[1, 6]` on the raw text with the first match selected; navigating "next"
with the term unchanged moves the selected index from 0 to 1, and a
further "next" wraps back to 0. -/
theorem search_div_navigation_scenario :
    (handleSearch ("div".toList) [] ("<div><div>".toList) ⟨[], -1⟩ none).1.indices = [1, 6] ∧
    (handleSearch ("div".toList) [] ("<div><div>".toList)
      ⟨[], -1⟩ none).1.currentResultIndex = 0 ∧
    (handleSearch ("div".toList)
      (handleSearch ("div".toList) [] ("<div><div>".toList) ⟨[], -1⟩ none).2
      ("<div><div>".toList)
      (handleSearch ("div".toList) [] ("<div><div>".toList) ⟨[], -1⟩ none).1
      (some SearchNav.next)).1.currentResultIndex = 1 ∧
    (handleSearch ("div".toList)
      (handleSearch ("div".toList)
        (handleSearch ("div".toList) [] ("<div><div>".toList) ⟨[], -1⟩ none).2
        ("<div><div>".toList)
        (handleSearch ("div".toList) [] ("<div><div>".toList) ⟨[], -1⟩ none).1
        (some SearchNav.next)).2
      ("<div><div>".toList)
      (handleSearch ("div".toList)
        (handleSearch ("div".toList) [] ("<div><div>".toList) ⟨[], -1⟩ none).2
        ("<div><div>".toList)
        (handleSearch ("div".toList) [] ("<div><div>".toList) ⟨[], -1⟩ none).1
        (some SearchNav.next)).1
      (some SearchNav.next)).1.currentResultIndex = 0 := by
  decide

/-! ## Tokenizer/Highlighter (src/components/Editor.tsx lines 14-82)

Each regex rule of `applySyntaxHighlighting` is translated into an
executable leftmost-match scanner (`Matcher`): given the character before
the current position (`none` at the string start, for `^` and for word
boundaries) and the remaining input, it returns the length of the match
starting here, if any.  The global-replace loop `runRule` walks the input
position by position exactly as JavaScript `String.replace` with a `g`
regex does: on a match it applies the callback (skip when the matched text
starts with a span-opening marker or contains a span-closing marker,
otherwise wrap) and resumes after the match.  Character classes follow the
ASCII reading of `\w`, `\s`, `\d` and JavaScript's `.` (no line
terminators). -/

def isWordChar (c : Char) : Bool := c.isAlphanum || c = '_'

def isLineTerm (c : Char) : Bool := c = '\n' || c = '\r'

def isTagNameChar (c : Char) : Bool := isWordChar c || c = '-'

def countWhile (p : Char → Bool) : List Char → Nat
  | [] => 0
  | c :: t => if p c then countWhile p t + 1 else 0

def findSub (pat : List Char) : List Char → Option Nat
  | [] => if pat.isPrefixOf ([] : List Char) then some 0 else none
  | c :: t => if pat.isPrefixOf (c :: t) then some 0 else (findSub pat t).map (· + 1)

def findClose (q : Char) : List Char → Option Nat
  | [] => none
  | c :: t =>
    if c = q then some 0
    else if isLineTerm c then none
    else (findClose q t).map (· + 1)

abbrev Matcher := Option Char → List Char → Option Nat

/-- Rule `(\/\/.*|\/\*[\s\S]*?\*\/|<!--[\s\S]*?-->)`: line comment to the
end of line, or lazy block comment, or lazy markup comment. -/
def matchComment : Matcher := fun _ s =>
  if ("//".toList).isPrefixOf s then
    some (2 + countWhile (fun c => !isLineTerm c) (s.drop 2))
  else if ("/*".toList).isPrefixOf s then
    match findSub ("*/".toList) (s.drop 2) with
    | some j => some (2 + j + 2)
    | none => none
  else if ("<!--".toList).isPrefixOf s then
    match findSub ("-->".toList) (s.drop 4) with
    | some j => some (4 + j + 3)
    | none => none
  else none

/-- Rule for string literals: a quote character, lazily up to the next
identical quote on the same line (`.` excludes line terminators). -/
def matchStringLit : Matcher := fun _ s =>
  match s with
  | c :: t =>
    if c = '\x27' || c = '"' || c = '\x60' then
      match findClose c t with
      | some j => some (j + 2)
      | none => none
    else none
  | [] => none

/-- Rule `(&lt;\/?[\w\d-]+)` for opening/closing tag heads on the escaped
text. -/
def matchHtmlTag : Matcher := fun _ s =>
  if ("&lt;".toList).isPrefixOf s then
    match s.drop 4 with
    | '/' :: r2 =>
      let n := countWhile isTagNameChar r2
      if 0 < n then some (4 + 1 + n) else none
    | r =>
      let n := countWhile isTagNameChar r
      if 0 < n then some (4 + n) else none
  else none

/-- Rule `([\w\d-]+)(?=\s*=&quot;)`: a word run whose lookahead is an
equals sign plus escaped quote (backtracking to shorter runs can never
succeed, since the run is followed by a word character). -/
def matchHtmlAttrName : Matcher := fun _ s =>
  let n := countWhile isTagNameChar s
  if n = 0 then none
  else
    let rest := s.drop n
    let rest2 := rest.drop (countWhile isJsSpace rest)
    if ("=&quot;".toList).isPrefixOf rest2 then some n else none

/-- Rule `(&gt;)` on the escaped text. -/
def matchGtEntity : Matcher := fun _ s =>
  if ("&gt;".toList).isPrefixOf s then some 4 else none

def isSelChar (c : Char) : Bool :=
  isWordChar c || c = '*' || c = '.' || c = '#' || c = '[' || c = ']' || c = ':' ||
  c = '"' || c = '\x27' || c = '-' || isJsSpace c || c = '>' || c = '+' || c = '~'

def lookBrace (s : List Char) : Bool :=
  match s.drop (countWhile isJsSpace s) with
  | c :: _ => c = '\x7b'
  | [] => false

/-- Lazy selector body `[\w\d\*\.#\[\]:"'\-\s>+~]+?` with lookahead
`(?=\s*\{)`: the shortest non-empty class run after which spaces and an
opening brace follow. -/
def selContent : List Char → Option Nat
  | [] => none
  | c :: t =>
    if isSelChar c then
      if lookBrace t then some 1 else (selContent t).map (· + 1)
    else none

def selAfterSep : List Char → Option Nat
  | c :: t =>
    if isJsSpace c || c = '\x7b' || c = '\x7d' || c = ';' then (selContent t).map (· + 1)
    else none
  | [] => none

/-- Rule `(?:^|[\s{};])([\w\d\*\.#\[\]:"'\-\s>+~]+?)(?=\s*\{)`: at the
string start the `^` alternative is tried first, then the
consumed-separator alternative. -/
def matchCssSelector : Matcher := fun pre s =>
  match pre with
  | none =>
    match selContent s with
    | some n => some n
    | none => selAfterSep s
  | some _ => selAfterSep s

/-- Rule `([\w\d-]+)\s*:`: property name, spaces and the colon are all
part of the match. -/
def matchCssPropName : Matcher := fun _ s =>
  let n := countWhile isTagNameChar s
  if n = 0 then none
  else
    let m := countWhile isJsSpace (s.drop n)
    match s.drop (n + m) with
    | ':' :: _ => some (n + m + 1)
    | _ => none

/-- Rule `:\s*([^;\}]+)`: since every whitespace character is itself in
`[^;\}]`, the greedy pair consumes the maximal run of characters other
than semicolon and closing brace after the colon, requiring at least one. -/
def matchCssValue : Matcher := fun _ s =>
  match s with
  | ':' :: t =>
    let n := countWhile (fun c => !(c = ';' || c = '\x7d')) t
    if 0 < n then some (1 + n) else none
  | _ => none

/-- Rule `([{}();,])`. -/
def matchCssPunct : Matcher := fun _ s =>
  match s with
  | c :: _ =>
    if c = '\x7b' || c = '\x7d' || c = '(' || c = ')' || c = ';' || c = ',' then some 1
    else none
  | [] => none

def jsKeywords : List (List Char) :=
  ["const", "let", "var", "function", "return", "if", "else", "for", "while",
   "switch", "case", "break", "continue", "new", "this", "import", "export",
   "default", "class", "extends", "super", "try", "catch", "finally", "typeof",
   "instanceof", "delete", "void", "async", "await", "true", "false", "null",
   "undefined"].map String.toList

def noWordBefore (pre : Option Char) : Bool :=
  match pre with
  | none => true
  | some c => !isWordChar c

def boundaryAfter (s : List Char) (n : Nat) : Bool :=
  match s.drop n with
  | [] => true
  | c :: _ => !isWordChar c

/-- Keyword rule `\b(const|let|...)\b`: no keyword in the list is a prefix
of another that continues with word characters, so at most one alternative
can match with both boundaries at a given position. -/
def matchJsKeyword : Matcher := fun pre s =>
  if noWordBefore pre then
    (jsKeywords.find? (fun k => k.isPrefixOf s && boundaryAfter s k.length)).map List.length
  else none

/-- Rule `\b([A-Z_][A-Z0-9_]*)\b` for all-caps constants. -/
def matchJsConstName : Matcher := fun pre s =>
  if noWordBefore pre then
    match s with
    | c :: t =>
      if c.isUpper || c = '_' then
        let n := 1 + countWhile (fun d => d.isUpper || d.isDigit || d = '_') t
        if boundaryAfter s n then some n else none
      else none
    | [] => none
  else none

/-- Rule `\b([a-zA-Z_]\w*)\s*(?=\()` for function call heads; the
whitespace run is consumed, the parenthesis is lookahead only. -/
def matchJsFuncName : Matcher := fun pre s =>
  if noWordBefore pre then
    match s with
    | c :: t =>
      if c.isAlpha || c = '_' then
        let n := 1 + countWhile isWordChar t
        let m := countWhile isJsSpace (s.drop n)
        match s.drop (n + m) with
        | '(' :: _ => some (n + m)
        | _ => none
      else none
    | [] => none
  else none

/-- Rule `\b\d+(\.\d+)?\b`: greedy digits, an optional fraction group that
is given up when the trailing boundary fails after it. -/
def matchJsNumber : Matcher := fun pre s =>
  if noWordBefore pre then
    let n := countWhile Char.isDigit s
    if n = 0 then none
    else
      let cand :=
        match s.drop n with
        | '.' :: r =>
          let f := countWhile Char.isDigit r
          if 0 < f then some (n + 1 + f) else none
        | _ => none
      match cand with
      | some m =>
        if boundaryAfter s m then some m
        else if boundaryAfter s n then some n else none
      | none => if boundaryAfter s n then some n else none
  else none

/-- Rule `([{}();,.:?])`. -/
def matchJsPunct : Matcher := fun _ s =>
  match s with
  | c :: _ =>
    if c = '\x7b' || c = '\x7d' || c = '(' || c = ')' || c = ';' || c = ',' ||
        c = '.' || c = ':' || c = '?' then some 1
    else none
  | [] => none

/-- Rule `([+\-*/%=&|<>!^~])`. -/
def matchJsOperator : Matcher := fun _ s =>
  match s with
  | c :: _ =>
    if c = '+' || c = '-' || c = '*' || c = '/' || c = '%' || c = '=' || c = '&' ||
        c = '|' || c = '<' || c = '>' || c = '!' || c = '^' || c = '~' then some 1
    else none
  | [] => none

def hasSub (pat s : List Char) : Bool := (findSub pat s).isSome

/-- Callback guard from Editor.tsx line 77: skip a match that starts with
a span-opening marker or contains a span-closing marker. -/
def guardSeg (seg : List Char) : Bool :=
  ("<span".toList).isPrefixOf seg || hasSub ("</span>".toList) seg

def wrapSpan (cls seg : List Char) : List Char :=
  ("<span class=\"".toList) ++ cls ++ ("\">".toList) ++ seg ++ ("</span>".toList)

/-- Global replace with callback: scan positions left to right, wrap each
match unless the guard skips it, resume after the match.  One unit of fuel
is spent per consumed character and every step consumes at least one, so
fuel `s.length` never runs out. -/
def runRuleAux (m : Matcher) (cls : List Char) : Nat → Option Char → List Char → List Char
  | 0, _, s => s
  | _ + 1, _, [] => []
  | fuel + 1, pre, c :: t =>
    match m pre (c :: t) with
    | some (n + 1) =>
      let seg := c :: t.take n
      let out := if guardSeg seg then seg else wrapSpan cls seg
      out ++ runRuleAux m cls fuel (some (seg.getLastD c)) (t.drop n)
    | _ => c :: runRuleAux m cls fuel (some c) t

def runRule (m : Matcher) (cls : List Char) (s : List Char) : List Char :=
  runRuleAux m cls s.length none s

inductive EditorLanguage where
  | html
  | css
  | javascript
deriving DecidableEq

/-- Ordered rule list of `applySyntaxHighlighting` (Editor.tsx lines
48-70) with the token colors of `tokenColors` (lines 14-29): the shared
comment and string rules first, then the language-specific rules. -/
def rulesFor (language : EditorLanguage) : List (Matcher × List Char) :=
  [(matchComment, "text-green-400".toList), (matchStringLit, "text-lime-300".toList)] ++
  (match language with
   | .html =>
     [(matchHtmlTag, "text-red-400".toList),
      (matchHtmlAttrName, "text-yellow-400".toList),
      (matchGtEntity, "text-red-400".toList)]
   | .css =>
     [(matchCssSelector, "text-orange-400".toList),
      (matchCssPropName, "text-sky-300".toList),
      (matchCssValue, "text-amber-300".toList),
      (matchCssPunct, "text-slate-400".toList)]
   | .javascript =>
     [(matchJsKeyword, "text-purple-400".toList),
      (matchJsConstName, "text-indigo-300".toList),
      (matchJsFuncName, "text-blue-400".toList),
      (matchJsNumber, "text-teal-300".toList),
      (matchJsPunct, "text-slate-400".toList),
      (matchJsOperator, "text-pink-400".toList)])

/-- Embedding of `escapeHtml` (Editor.tsx lines 31-42). -/
def escapeChar (c : Char) : List Char :=
  if c = '&' then "&amp;".toList
  else if c = '<' then "&lt;".toList
  else if c = '>' then "&gt;".toList
  else if c = '"' then "&quot;".toList
  else if c = '\x27' then "&#39;".toList
  else [c]

def escapeHtml : List Char → List Char
  | [] => []
  | c :: t => escapeChar c ++ escapeHtml t

def applyRules (language : EditorLanguage) (text : List Char) : List Char :=
  (rulesFor language).foldl (fun acc r => runRule r.1 r.2 acc) text

/-- Final `replace(/\n/g, '<br>')` of Editor.tsx line 81. -/
def brEncode : List Char → List Char
  | [] => []
  | c :: t => (if c = '\n' then "<br>".toList else [c]) ++ brEncode t

/-- Embedding of `applySyntaxHighlighting` (Editor.tsx lines 44-82):
empty input yields the empty string; otherwise escape, apply the rules in
order, then encode line breaks. -/
def applySyntaxHighlighting (text : List Char) (language : EditorLanguage) : List Char :=
  if text = [] then [] else brEncode (applyRules language (escapeHtml text))

/-- Claim-side operation: remove every span-opening tag (from `<span` up
to and including the next `>`) and every `</span>` closing tag. -/
def stripSpanAux : Bool → List Char → List Char
  | true, [] => []
  | true, '>' :: t => stripSpanAux false t
  | true, _ :: t => stripSpanAux true t
  | false, '<' :: '/' :: 's' :: 'p' :: 'a' :: 'n' :: '>' :: t => stripSpanAux false t
  | false, '<' :: 's' :: 'p' :: 'a' :: 'n' :: t => stripSpanAux true t
  | false, c :: t => c :: stripSpanAux false t
  | false, [] => []

def stripSpanTags (s : List Char) : List Char := stripSpanAux false s

/-- Claim-side operation: convert every line-break marker `<br>` back to a
newline. -/
def brDecode : List Char → List Char
  | '<' :: 'b' :: 'r' :: '>' :: t => '\n' :: brDecode t
  | c :: t => c :: brDecode t
  | [] => []

/-- Round trip of the claim: highlight, strip all span tags, convert the
line-break markers back to newlines. -/
def highlightRoundTrip (text : List Char) (language : EditorLanguage) : List Char :=
  brDecode (stripSpanTags (applySyntaxHighlighting text language))

lemma escapeChar_not_lt (c : Char) : '<' ∉ escapeChar c := by
  unfold escapeChar
  by_cases h1 : c = '&'
  · rw [if_pos h1]
    decide
  · rw [if_neg h1]
    by_cases h2 : c = '<'
    · rw [if_pos h2]
      decide
    · rw [if_neg h2]
      by_cases h3 : c = '>'
      · rw [if_pos h3]
        decide
      · rw [if_neg h3]
        by_cases h4 : c = '"'
        · rw [if_pos h4]
          decide
        · rw [if_neg h4]
          by_cases h5 : c = '\x27'
          · rw [if_pos h5]
            decide
          · rw [if_neg h5]
            intro hm
            rw [List.mem_singleton] at hm
            exact h2 hm.symm

lemma escapeHtml_not_lt (t : List Char) : '<' ∉ escapeHtml t := by
  induction t with
  | nil => simp [escapeHtml]
  | cons c t ih =>
    intro hmem
    rw [show escapeHtml (c :: t) = escapeChar c ++ escapeHtml t from rfl,
      List.mem_append] at hmem
    rcases hmem with hmem | hmem
    · exact escapeChar_not_lt c hmem
    · exact ih hmem

lemma escapeChar_id_of_plain (c : Char)
    (h : c ∉ (['&', '<', '>', '"', '\x27'] : List Char)) : escapeChar c = [c] := by
  have h1 : ¬ c = '&' := fun e => h (by simp [e])
  have h2 : ¬ c = '<' := fun e => h (by simp [e])
  have h3 : ¬ c = '>' := fun e => h (by simp [e])
  have h4 : ¬ c = '"' := fun e => h (by simp [e])
  have h5 : ¬ c = '\x27' := fun e => h (by simp [e])
  unfold escapeChar
  rw [if_neg h1, if_neg h2, if_neg h3, if_neg h4, if_neg h5]

lemma escapeHtml_id_of_plain (t : List Char)
    (h : ∀ c ∈ t, c ∉ (['&', '<', '>', '"', '\x27'] : List Char)) : escapeHtml t = t := by
  induction t with
  | nil => rfl
  | cons c t ih =>
    rw [show escapeHtml (c :: t) = escapeChar c ++ escapeHtml t from rfl,
      escapeChar_id_of_plain c (h c (by simp)), ih (fun d hd => h d (by simp [hd]))]
    rfl

lemma stripSpanAux_cons_ne (c : Char) (t : List Char) (h : c ≠ '<') :
    stripSpanAux false (c :: t) = c :: stripSpanAux false t := by
  rw [stripSpanAux.eq_def]
  split <;> simp_all

lemma brDecode_cons_ne (c : Char) (t : List Char) (h : c ≠ '<') :
    brDecode (c :: t) = c :: brDecode t := by
  rw [brDecode.eq_def]
  split <;> simp_all

lemma stripSpanAux_brEncode (s : List Char) (h : '<' ∉ s) :
    stripSpanAux false (brEncode s) = brEncode s := by
  induction s with
  | nil => rfl
  | cons c t ih =>
    have hc : c ≠ '<' := fun e => h (by simp [e])
    have ht : '<' ∉ t := fun hm => h (by simp [hm])
    by_cases hn : c = '\n'
    · subst hn
      have h1 : stripSpanAux false (brEncode ('\n' :: t)) =
          '<' :: 'b' :: 'r' :: '>' :: stripSpanAux false (brEncode t) := rfl
      have h2 : brEncode ('\n' :: t) = '<' :: 'b' :: 'r' :: '>' :: brEncode t := rfl
      rw [h1, ih ht, h2]
    · have hb : brEncode (c :: t) = c :: brEncode t := by
        rw [show brEncode (c :: t) = (if c = '\n' then "<br>".toList else [c]) ++ brEncode t
          from rfl, if_neg hn]
        rfl
      rw [hb, stripSpanAux_cons_ne c _ hc, ih ht]

lemma brDecode_brEncode (s : List Char) (h : '<' ∉ s) : brDecode (brEncode s) = s := by
  induction s with
  | nil => rfl
  | cons c t ih =>
    have hc : c ≠ '<' := fun e => h (by simp [e])
    have ht : '<' ∉ t := fun hm => h (by simp [hm])
    by_cases hn : c = '\n'
    · subst hn
      have h1 : brDecode (brEncode ('\n' :: t)) = '\n' :: brDecode (brEncode t) := rfl
      rw [h1, ih ht]
    · have hb : brEncode (c :: t) = c :: brEncode t := by
        rw [show brEncode (c :: t) = (if c = '\n' then "<br>".toList else [c]) ++ brEncode t
          from rfl, if_neg hn]
        rfl
      rw [hb, brDecode_cons_ne c _ hc, ih ht]

/-- Claim C1 counterexample: for the plain text `"&"` (any language; shown
for html) the round trip returns the escaped text `"&amp;"`, not `"&"`:
`highlight` escapes HTML-special characters and stripping span tags plus
decoding line-break markers never un-escapes them. -/
theorem highlight_roundTrip_counterexample :
    highlightRoundTrip ("&".toList) EditorLanguage.html ≠ "&".toList := by
  decide

/-- Claim C1, amended: the round trip (strip all span tags, convert
line-break markers back to newlines) reproduces T exactly for texts T that
contain no HTML-special character and on which the highlighting rules
leave the escaped text unchanged; in general the output retains the
HTML-escaping of T, and rules can re-match previously inserted span
markup, so the original text is not recovered. -/
theorem highlight_roundTrip_plain (text : List Char) (language : EditorLanguage)
    (hplain : ∀ c ∈ text, c ∉ (['&', '<', '>', '"', '\x27'] : List Char))
    (hrules : applyRules language (escapeHtml text) = escapeHtml text) :
    highlightRoundTrip text language = text := by
  by_cases h0 : text = []
  · subst h0
    rfl
  · unfold highlightRoundTrip applySyntaxHighlighting
    rw [if_neg h0, hrules]
    unfold stripSpanTags
    rw [stripSpanAux_brEncode _ (escapeHtml_not_lt text),
      brDecode_brEncode _ (escapeHtml_not_lt text),
      escapeHtml_id_of_plain text hplain]

/-- Witness for `highlight_roundTrip_plain`: a two-line plain text under
the html rule set. -/
theorem highlight_roundTrip_plain_witness :
    highlightRoundTrip ("ab cd\nef".toList) EditorLanguage.html = "ab cd\nef".toList :=
  highlight_roundTrip_plain ("ab cd\nef".toList) EditorLanguage.html (by decide) (by decide)
